import Mathlib

/-!
Verification of the Minesweeper AI inference engine
(`src/minesweeper/minesweeper.py`).

Cells are pairs of integers, as in the Python source.  Python `set`s of
cells are modelled as `Finset (Int × Int)`; sentence counts are `Int`
(Python integers, which the code can drive negative).  The knowledge base
is the ordered list of sentences.  In-place mutation of shared `Sentence`
objects is modelled by rebuilding the whole state: whenever the AI marks a
cell, every sentence in the list is updated, exactly as the propagation in
`MinesweeperAI.mark_mine` / `mark_safe` does.
-/

abbrev Cell := Int × Int

/-- Bounds test `0 <= row < height and 0 <= col < width` from the source. -/
def inB (h w : Nat) (c : Cell) : Prop :=
  0 ≤ c.1 ∧ c.1 < (h : Int) ∧ 0 ≤ c.2 ∧ c.2 < (w : Int)

instance (h w : Nat) (c : Cell) : Decidable (inB h w c) := by
  unfold inB; infer_instance

/-- `Sentence`: a set of cells together with the number of them that are
mines (`class Sentence`). -/
structure Sentence where
  cells : Finset Cell
  count : Int
deriving DecidableEq

/-- `Sentence.known_mines`: returns the cells when `len(self.cells) == self.count`,
otherwise `None`. -/
def Sentence.known_mines (s : Sentence) : Option (Finset Cell) :=
  if (s.cells.card : Int) = s.count then some s.cells else none

/-- `Sentence.known_safes`: returns the cells when `self.count == 0`,
otherwise `None`. -/
def Sentence.known_safes (s : Sentence) : Option (Finset Cell) :=
  if s.count = 0 then some s.cells else none

/-- `Sentence.mark_mine`: rebuilds `cells` without `cell`, decrementing
`count` once for the removed occurrence (sets hold it at most once). -/
def Sentence.mark_mine (s : Sentence) (c : Cell) : Sentence :=
  ⟨s.cells.erase c, if c ∈ s.cells then s.count - 1 else s.count⟩

/-- `Sentence.mark_safe`: rebuilds `cells` without `cell`; `count` unchanged. -/
def Sentence.mark_safe (s : Sentence) (c : Cell) : Sentence :=
  ⟨s.cells.erase c, s.count⟩

/-- Combined effect on one sentence of marking every cell of `D` as a mine
(in any order): each cell of `D` present in `cells` is removed and decrements
`count` once. -/
def Sentence.markMineSet (s : Sentence) (D : Finset Cell) : Sentence :=
  ⟨s.cells \ D, s.count - ((s.cells ∩ D).card : Int)⟩

/-- Combined effect on one sentence of marking every cell of `D` as safe. -/
def Sentence.markSafeSet (s : Sentence) (D : Finset Cell) : Sentence :=
  ⟨s.cells \ D, s.count⟩

/-- The AI state (`class MinesweeperAI`). -/
structure MinesweeperAI where
  height : Nat
  width : Nat
  moves_made : Finset Cell
  mines : Finset Cell
  safes : Finset Cell
  knowledge : List Sentence
deriving DecidableEq

/-- Fresh AI state (`MinesweeperAI.__init__`). -/
def MinesweeperAI.init (h w : Nat) : MinesweeperAI :=
  ⟨h, w, ∅, ∅, ∅, []⟩

/-- `MinesweeperAI.mark_mine`: add to `self.mines` and propagate into every
held sentence. -/
def MinesweeperAI.mark_mine (a : MinesweeperAI) (c : Cell) : MinesweeperAI :=
  { a with mines := insert c a.mines,
           knowledge := a.knowledge.map (fun s => s.mark_mine c) }

/-- `MinesweeperAI.mark_safe`: add to `self.safes` and propagate into every
held sentence. -/
def MinesweeperAI.mark_safe (a : MinesweeperAI) (c : Cell) : MinesweeperAI :=
  { a with safes := insert c a.safes,
           knowledge := a.knowledge.map (fun s => s.mark_safe c) }

/-- Combined effect of calling `MinesweeperAI.mark_mine` on every cell of `D`
(the loops `for mine_found in ...: self.mark_mine(mine_found)`; Python set
iteration order is unspecified, and the net effect is order independent). -/
def MinesweeperAI.markMineSet (a : MinesweeperAI) (D : Finset Cell) : MinesweeperAI :=
  { a with mines := a.mines ∪ D,
           knowledge := a.knowledge.map (fun s => s.markMineSet D) }

/-- Combined effect of calling `MinesweeperAI.mark_safe` on every cell of `D`. -/
def MinesweeperAI.markSafeSet (a : MinesweeperAI) (D : Finset Cell) : MinesweeperAI :=
  { a with safes := a.safes ∪ D,
           knowledge := a.knowledge.map (fun s => s.markSafeSet D) }

/-- The 3 x 3 box `range(i-1, i+2) x range(j-1, j+2)` scanned by
`get_enclosed_cells` and `nearby_mines` (the probed cell itself included). -/
def boxOf (cell : Cell) : Finset Cell :=
  ({cell.1 - 1, cell.1, cell.1 + 1} : Finset Int) ×ˢ
    ({cell.2 - 1, cell.2, cell.2 + 1} : Finset Int)

/-- The in-bounds grid neighbors of a cell: the 3 x 3 box minus the cell
itself, restricted to the grid. -/
def inBoundsNeighbors (h w : Nat) (cell : Cell) : Finset Cell :=
  (boxOf cell).filter (fun p => p ≠ cell ∧ inB h w p)

/-- `MinesweeperAI.get_enclosed_cells`: the in-bounds neighbors not already
known safe or mine, and `count` decremented once for every position of the
scanned box that lies in `self.mines` (the source applies this decrement to
every `(row, col)` of the box, without the bounds test and without excluding
the probed cell). -/
def MinesweeperAI.get_enclosed_cells (a : MinesweeperAI) (cell : Cell) (count : Int) :
    Finset Cell × Int :=
  ((boxOf cell).filter
      (fun p => inB a.height a.width p ∧ p ≠ cell ∧ p ∉ a.safes ∧ p ∉ a.mines),
   count - (((boxOf cell).filter (fun p => p ∈ a.mines)).card : Int))

/-- Element `k` of the knowledge list (total, with the vacuous sentence as
fallback; all uses stay in range). -/
def nthS (l : List Sentence) (k : Nat) : Sentence :=
  (l.get? k).getD ⟨∅, 0⟩

/-- One comparison of the conclusion loop body in `add_knowledge`: `s`
against the newly added `sentence`, skipping structurally equal sentences,
then subset resolution in both directions. -/
def resolvePair (a : MinesweeperAI) (s t : Sentence) : MinesweeperAI :=
  if s = t then a
  else if t.cells ⊆ s.cells then
    if s.count = t.count then a.markSafeSet (s.cells \ t.cells)
    else if ((s.cells \ t.cells).card : Int) = s.count - t.count then
      a.markMineSet (s.cells \ t.cells)
    else a
  else if s.cells ⊆ t.cells then
    if s.count = t.count then a.markSafeSet (t.cells \ s.cells)
    else if ((t.cells \ s.cells).card : Int) = t.count - s.count then
      a.markMineSet (t.cells \ s.cells)
    else a
  else a

/-- One iteration of `for s in self.knowledge:` in `add_knowledge`: the
sentence at index `k` is compared with the current value of the newly
appended sentence (the last list position; marks mutate it in place, so it
is re-read at every step). -/
def processPair (a : MinesweeperAI) (k : Nat) : MinesweeperAI :=
  resolvePair a (nthS a.knowledge k) (nthS a.knowledge (a.knowledge.length - 1))

/-- The whole conclusion loop of `add_knowledge`: the list length is fixed
before the loop (marks never add or remove sentences). -/
def conclusionPass (a : MinesweeperAI) : MinesweeperAI :=
  (List.range a.knowledge.length).foldl processPair a

/-- `MinesweeperAI.remove_duplicates`: keep the first occurrence of every
sentence value, in order. -/
def remove_duplicates (l : List Sentence) : List Sentence :=
  l.foldl (fun acc s => if s ∈ acc then acc else acc ++ [s]) []

/-- One iteration of the loop in `remove_sures`, acting on the pair of the
mutating AI state and the indices kept so far.  `if s.known_mines():` is
Python truthiness: the branch is taken when the result is a nonempty set
(`None` and the empty set are both falsy). -/
def removeSuresStep (st : MinesweeperAI × List Nat) (k : Nat) :
    MinesweeperAI × List Nat :=
  if ((nthS st.1.knowledge k).known_mines.getD ∅).Nonempty then
    (st.1.markMineSet ((nthS st.1.knowledge k).known_mines.getD ∅), st.2)
  else if ((nthS st.1.knowledge k).known_safes.getD ∅).Nonempty then
    (st.1.markSafeSet ((nthS st.1.knowledge k).known_safes.getD ∅), st.2)
  else (st.1, st.2 ++ [k])

/-- Replace the knowledge list of a state, keeping every other field. -/
def withKnowledge (a : MinesweeperAI) (l : List Sentence) : MinesweeperAI :=
  { a with knowledge := l }

/-- The fold of the `remove_sures` loop: the final state (all marks applied)
together with the indices of the kept sentences. -/
def keptOf (a : MinesweeperAI) : MinesweeperAI × List Nat :=
  (List.range a.knowledge.length).foldl removeSuresStep (a, [])

/-- `MinesweeperAI.remove_sures`: one pass over the (fixed) original list;
kept sentences keep mutating as later ones are resolved, so the final list
re-reads them from the final state. -/
def MinesweeperAI.remove_sures (a : MinesweeperAI) : MinesweeperAI :=
  withKnowledge (keptOf a).1 ((keptOf a).2.map (fun k => nthS (keptOf a).1.knowledge k))

/-- Steps 1 and 2 of `add_knowledge`: `self.mark_safe(cell)` and
`self.moves_made.add(cell)`. -/
def MinesweeperAI.probeState (a : MinesweeperAI) (cell : Cell) : MinesweeperAI :=
  { a.mark_safe cell with moves_made := insert cell (a.mark_safe cell).moves_made }

/-- The `Sentence(neighbors, count)` built and appended by `add_knowledge`
(after the probed cell was marked safe and recorded). -/
def MinesweeperAI.addedSentence (a : MinesweeperAI) (cell : Cell) (count : Int) : Sentence :=
  ⟨((a.probeState cell).get_enclosed_cells cell count).1,
   ((a.probeState cell).get_enclosed_cells cell count).2⟩

/-- The state right after `self.knowledge.append(sentence)` in
`add_knowledge`. -/
def appendStage (a : MinesweeperAI) (cell : Cell) (count : Int) : MinesweeperAI :=
  withKnowledge (a.probeState cell)
    ((a.probeState cell).knowledge ++ [a.addedSentence cell count])

/-- The state after the conclusion loop and `self.remove_duplicates()`. -/
def dedupStage (a : MinesweeperAI) (cell : Cell) (count : Int) : MinesweeperAI :=
  withKnowledge (conclusionPass (appendStage a cell count))
    (remove_duplicates (conclusionPass (appendStage a cell count)).knowledge)

/-- `MinesweeperAI.add_knowledge`: mark the probed cell safe and made, append
the new sentence, run the conclusion loop, deduplicate, then `remove_sures`. -/
def MinesweeperAI.add_knowledge (a : MinesweeperAI) (cell : Cell) (count : Int) :
    MinesweeperAI :=
  (dedupStage a cell count).remove_sures

/-- Injective coding of a Python integer as a natural number. -/
def encInt (z : Int) : Nat :=
  if 0 ≤ z then 2 * z.toNat else 2 * (-z).toNat - 1

/-- Inverse of `encInt`. -/
def decInt (n : Nat) : Int :=
  if n % 2 = 0 then ((n / 2 : Nat) : Int) else -(((n + 1) / 2 : Nat) : Int)

/-- Injective coding of a cell as a natural number. -/
def encCell (c : Cell) : Nat := Nat.pair (encInt c.1) (encInt c.2)

/-- Inverse of `encCell`. -/
def decCell (n : Nat) : Cell :=
  (decInt (Nat.unpair n).1, decInt (Nat.unpair n).2)

/-- `MinesweeperAI.make_safe_move`: `self.safes - self.moves_made`, `None`
if empty, else some element of it (`set.pop` picks an unspecified element
from a fresh local set; the fields of the state are read only, so the state
is returned unchanged).  The element picked here is the one with minimal
code. -/
def MinesweeperAI.make_safe_move (a : MinesweeperAI) : Option Cell × MinesweeperAI :=
  if h : a.safes \ a.moves_made = ∅ then (none, a)
  else
    (some (decCell (((a.safes \ a.moves_made).image encCell).min'
      ((Finset.nonempty_iff_ne_empty.mpr h).image encCell))), a)

/-- A sequence of `add_knowledge` calls. -/
def applyUpdates (a : MinesweeperAI) (l : List (Cell × Int)) : MinesweeperAI :=
  l.foldl (fun x p => x.add_knowledge p.1 p.2) a

/-- `Minesweeper.nearby_mines` for a hazard placement `M` on an `h x w`
grid: the number of in-bounds cells of the 3 x 3 box, other than the cell
itself, holding a mine.  This is the truthful count the environment reports
for a probe. -/
def nearby_mines (M : Finset Cell) (h w : Nat) (cell : Cell) : Nat :=
  ((inBoundsNeighbors h w cell).filter (fun p => p ∈ M)).card

/-- A legitimate play on a 1 x 8 grid with mines at `(0,2)` and `(0,6)`:
probes `(0,1), (0,3), (0,5), (0,7)`, each with its truthful neighbor-mine
count. -/
def failAI : MinesweeperAI :=
  applyUpdates (MinesweeperAI.init 1 8)
    [(((0 : Int), (1 : Int)), (1 : Int)), ((0, 3), 1), ((0, 5), 1), ((0, 7), 1)]

/-- The state after probing `(0,0)` (truthful count 1) on a 1 x 2 grid whose
only mine is `(0,1)`: the AI deduces the mine at `(0,1)`. -/
def cornerAI : MinesweeperAI :=
  applyUpdates (MinesweeperAI.init 1 2) [(((0 : Int), (0 : Int)), (1 : Int))]

/-- Concrete AI state with one known safe unprobed cell. -/
def miniAI : MinesweeperAI := ⟨1, 2, ∅, ∅, {((0 : Int), (0 : Int))}, []⟩

/-- State after probing `(0,1)` with count 1 on a 1 x 3 grid: one sentence
`{(0,0),(0,2)} = 1` is held. -/
def kbAI : MinesweeperAI :=
  applyUpdates (MinesweeperAI.init 1 3) [(((0 : Int), (1 : Int)), (1 : Int))]

/-- The hazard placement of the 1 x 2 counterexample scenario. -/
def mineAt01 : Finset Cell := {((0 : Int), (1 : Int))}

/-- State after the truthful probes `(0,0)` then `(0,1)` on a 1 x 2 grid
with its mine at `(0,1)`. -/
def badAI : MinesweeperAI :=
  applyUpdates (MinesweeperAI.init 1 2)
    [(((0 : Int), (0 : Int)), (1 : Int)), ((0, 1), 0)]

/-- State after the single truthful probe on a mine-free 1 x 1 grid. -/
def tinyAI : MinesweeperAI :=
  applyUpdates (MinesweeperAI.init 1 1) [(((0 : Int), (0 : Int)), (0 : Int))]

lemma decInt_encInt (z : Int) : decInt (encInt z) = z := by
  unfold decInt encInt
  by_cases h : 0 ≤ z
  · have h1 : (z.toNat : Int) = z := Int.toNat_of_nonneg h
    have h2 : (2 * z.toNat) % 2 = 0 := by omega
    rw [if_pos h, if_pos h2]
    push_cast
    omega
  · have h0 : 0 ≤ -z := by omega
    have h1 : ((-z).toNat : Int) = -z := Int.toNat_of_nonneg h0
    have hm : 1 ≤ (-z).toNat := by omega
    have h2 : ¬(2 * (-z).toNat - 1) % 2 = 0 := by omega
    have h3 : (2 * (-z).toNat - 1 + 1) / 2 = (-z).toNat := by omega
    rw [if_neg h, if_neg h2, h3]
    omega

lemma decCell_encCell (c : Cell) : decCell (encCell c) = c := by
  unfold decCell encCell
  rw [Nat.unpair_pair]
  simp [decInt_encInt]

lemma foldl_preserve {σ α : Type _} (P : σ → Prop) (f : σ → α → σ)
    (hf : ∀ s x, P s → P (f s x)) :
    ∀ (l : List α) (s : σ), P s → P (l.foldl f s) := by
  intro l
  induction l with
  | nil => intro s hs; exact hs
  | cons x xs ih => intro s hs; exact ih _ (hf s x hs)

lemma foldl_rel {σ α : Type _} (R : σ → σ → Prop) (f : σ → α → σ)
    (hrefl : ∀ s, R s s) (htrans : ∀ x y z, R x y → R y z → R x z)
    (hf : ∀ s x, R s (f s x)) :
    ∀ (l : List α) (s : σ), R s (l.foldl f s) := by
  intro l
  induction l with
  | nil => intro s; exact hrefl s
  | cons x xs ih => intro s; exact htrans _ _ _ (hf s x) (ih (f s x))

lemma nthS_mem : ∀ (l : List Sentence) (k : Nat), nthS l k ∈ l ∨ nthS l k = ⟨∅, 0⟩ := by
  intro l
  induction l with
  | nil => intro k; right; simp [nthS]
  | cons x xs ih =>
    intro k
    cases k with
    | zero => left; simp [nthS]
    | succ n =>
      have h : nthS (x :: xs) (n + 1) = nthS xs n := by simp [nthS]
      rw [h]
      rcases ih n with h1 | h1
      · left; exact List.mem_cons_of_mem _ h1
      · right; exact h1

lemma mem_dedup_aux : ∀ (l acc : List Sentence) (s : Sentence),
    s ∈ l.foldl (fun acc t => if t ∈ acc then acc else acc ++ [t]) acc →
    s ∈ acc ∨ s ∈ l := by
  intro l
  induction l with
  | nil => intro acc s h; left; exact h
  | cons x xs ih =>
    intro acc s h
    simp only [List.foldl_cons] at h
    rcases ih _ s h with h1 | h1
    · by_cases hx : x ∈ acc
      · rw [if_pos hx] at h1; left; exact h1
      · rw [if_neg hx] at h1
        rcases List.mem_append.mp h1 with h2 | h2
        · left; exact h2
        · right; simp only [List.mem_singleton] at h2; simp [h2]
    · right; exact List.mem_cons_of_mem _ h1

lemma mem_remove_duplicates {l : List Sentence} {s : Sentence}
    (h : s ∈ remove_duplicates l) : s ∈ l := by
  rcases mem_dedup_aux l [] s h with h1 | h1
  · exact absurd h1 (List.not_mem_nil s)
  · exact h1

/-- Marking a one-element set on a sentence is the single source-level mark. -/
lemma Sentence.markMineSet_singleton (s : Sentence) (c : Cell) :
    s.markMineSet {c} = s.mark_mine c := by
  unfold Sentence.markMineSet Sentence.mark_mine
  by_cases h : c ∈ s.cells
  · rw [if_pos h, Finset.inter_comm, Finset.singleton_inter_of_mem h]
    rw [← Finset.erase_eq]
    simp
  · rw [if_neg h, Finset.inter_comm, Finset.singleton_inter_of_not_mem h]
    rw [← Finset.erase_eq]
    simp

/-- Marking a one-element set on a sentence (safe case). -/
lemma Sentence.markSafeSet_singleton (s : Sentence) (c : Cell) :
    s.markSafeSet {c} = s.mark_safe c := by
  unfold Sentence.markSafeSet Sentence.mark_safe
  rw [← Finset.erase_eq]

/-- Peeling one cell off a composite mine mark: marking `insert c D` is
marking `D` and then marking `c`, so the composite coincides with the
source's one-cell-at-a-time iteration in any order. -/
lemma Sentence.markMineSet_insert (s : Sentence) (c : Cell) (D : Finset Cell)
    (h : c ∉ D) : s.markMineSet (insert c D) = (s.markMineSet D).mark_mine c := by
  unfold Sentence.markMineSet Sentence.mark_mine
  have hcells : s.cells \ insert c D = (s.cells \ D).erase c := by
    ext x
    simp only [Finset.mem_sdiff, Finset.mem_insert, Finset.mem_erase]
    tauto
  by_cases hc : c ∈ s.cells
  · have h1 : s.cells ∩ insert c D = insert c (s.cells ∩ D) := by
      ext x
      simp only [Finset.mem_inter, Finset.mem_insert]
      constructor
      · rintro ⟨hx, hx2 | hx2⟩
        · exact Or.inl hx2
        · exact Or.inr ⟨hx, hx2⟩
      · rintro (rfl | ⟨hx, hx2⟩)
        · exact ⟨hc, Or.inl rfl⟩
        · exact ⟨hx, Or.inr hx2⟩
    have h2 : c ∉ s.cells ∩ D := by simp [h]
    have h3 : c ∈ s.cells \ D := Finset.mem_sdiff.mpr ⟨hc, h⟩
    rw [hcells, h1, Finset.card_insert_of_not_mem h2, if_pos h3]
    simp only [Sentence.mk.injEq, true_and]
    push_cast
    ring
  · have h1 : s.cells ∩ insert c D = s.cells ∩ D := by
      ext x
      simp only [Finset.mem_inter, Finset.mem_insert]
      constructor
      · rintro ⟨hx, hx2 | hx2⟩
        · exact absurd (hx2 ▸ hx) hc
        · exact ⟨hx, hx2⟩
      · rintro ⟨hx, hx2⟩
        exact ⟨hx, Or.inr hx2⟩
    have h3 : c ∉ s.cells \ D := fun hx => hc (Finset.mem_sdiff.mp hx).1
    rw [hcells, h1, if_neg h3]

/-- Peeling one cell off a composite safe mark. -/
lemma Sentence.markSafeSet_insert (s : Sentence) (c : Cell) (D : Finset Cell) :
    s.markSafeSet (insert c D) = (s.markSafeSet D).mark_safe c := by
  unfold Sentence.markSafeSet Sentence.mark_safe
  have hcells : s.cells \ insert c D = (s.cells \ D).erase c := by
    ext x
    simp only [Finset.mem_sdiff, Finset.mem_insert, Finset.mem_erase]
    tauto
  rw [hcells]

/-- The composite AI-level mine mark of a one-element set is the source's
`MinesweeperAI.mark_mine`. -/
lemma AI_markMineSet_singleton (a : MinesweeperAI) (c : Cell) :
    a.markMineSet {c} = a.mark_mine c := by
  unfold MinesweeperAI.markMineSet MinesweeperAI.mark_mine
  rw [show a.mines ∪ {c} = insert c a.mines by rw [Finset.insert_eq, Finset.union_comm]]
  simp only [Sentence.markMineSet_singleton]

/-- The composite AI-level safe mark of a one-element set is the source's
`MinesweeperAI.mark_safe`. -/
lemma AI_markSafeSet_singleton (a : MinesweeperAI) (c : Cell) :
    a.markSafeSet {c} = a.mark_safe c := by
  unfold MinesweeperAI.markSafeSet MinesweeperAI.mark_safe
  rw [show a.safes ∪ {c} = insert c a.safes by rw [Finset.insert_eq, Finset.union_comm]]
  simp only [Sentence.markSafeSet_singleton]

/-- Peeling one cell off the composite AI-level mine mark. -/
lemma AI_markMineSet_insert (a : MinesweeperAI) (c : Cell) (D : Finset Cell)
    (h : c ∉ D) : a.markMineSet (insert c D) = (a.markMineSet D).mark_mine c := by
  unfold MinesweeperAI.markMineSet MinesweeperAI.mark_mine
  simp only [List.map_map]
  rw [Finset.union_insert]
  congr 1
  exact List.map_congr_left (fun s _ => Sentence.markMineSet_insert s c D h)

/-- Peeling one cell off the composite AI-level safe mark. -/
lemma AI_markSafeSet_insert (a : MinesweeperAI) (c : Cell) (D : Finset Cell) :
    a.markSafeSet (insert c D) = (a.markSafeSet D).mark_safe c := by
  unfold MinesweeperAI.markSafeSet MinesweeperAI.mark_safe
  simp only [List.map_map]
  rw [Finset.union_insert]
  congr 1
  exact List.map_congr_left (fun s _ => Sentence.markSafeSet_insert s c D)

/-- C5.  `known_mines` returns the cell set exactly when `count = |cells|`,
`known_safes` exactly when `count = 0`, and `None` otherwise; a vacuous
sentence yields the empty set from both queries. -/
theorem known_queries_characterization (s : Sentence) :
    (s.known_mines = some s.cells ↔ (s.cells.card : Int) = s.count) ∧
    (s.known_mines = none ↔ (s.cells.card : Int) ≠ s.count) ∧
    (s.known_safes = some s.cells ↔ s.count = 0) ∧
    (s.known_safes = none ↔ s.count ≠ 0) ∧
    Sentence.known_mines ⟨∅, 0⟩ = some ∅ ∧
    Sentence.known_safes ⟨∅, 0⟩ = some ∅ := by
  unfold Sentence.known_mines Sentence.known_safes
  refine ⟨?_, ?_, ?_, ?_, by simp, by simp⟩ <;> split_ifs with h <;> simp [h]

/-- C6.  `Sentence.mark_mine` removes a present cell and decrements the
count by one, keeping all other cells; it is a no-op on an absent cell. -/
theorem mark_mine_characterization (s : Sentence) (c : Cell) :
    (c ∈ s.cells → (s.mark_mine c).cells = s.cells.erase c ∧
      (s.mark_mine c).count = s.count - 1) ∧
    (c ∉ s.cells → s.mark_mine c = s) := by
  obtain ⟨cs, ct⟩ := s
  unfold Sentence.mark_mine
  constructor
  · intro h
    exact ⟨rfl, by simp only at h ⊢; rw [if_pos h]⟩
  · intro h
    simp only at h ⊢
    rw [if_neg h, Finset.erase_eq_of_not_mem h]

/-- Witness for C6 at concrete inputs. -/
theorem mark_mine_characterization_witness :
    (((0 : Int), (0 : Int)) ∈ (⟨{((0 : Int), (0 : Int))}, 1⟩ : Sentence).cells ∧
      ((⟨{((0 : Int), (0 : Int))}, 1⟩ : Sentence).mark_mine ((0 : Int), (0 : Int))).cells =
        ({((0 : Int), (0 : Int))} : Finset Cell).erase ((0 : Int), (0 : Int)) ∧
      ((⟨{((0 : Int), (0 : Int))}, 1⟩ : Sentence).mark_mine ((0 : Int), (0 : Int))).count = 0) ∧
    (((5 : Int), (5 : Int)) ∉ (⟨{((0 : Int), (0 : Int))}, 1⟩ : Sentence).cells ∧
      (⟨{((0 : Int), (0 : Int))}, 1⟩ : Sentence).mark_mine ((5 : Int), (5 : Int)) =
        ⟨{((0 : Int), (0 : Int))}, 1⟩) :=
  ⟨⟨by decide,
    ((mark_mine_characterization ⟨{((0 : Int), (0 : Int))}, 1⟩ ((0 : Int), (0 : Int))).1
      (by decide)).1,
    ((mark_mine_characterization ⟨{((0 : Int), (0 : Int))}, 1⟩ ((0 : Int), (0 : Int))).1
      (by decide)).2⟩,
   ⟨by decide,
    (mark_mine_characterization ⟨{((0 : Int), (0 : Int))}, 1⟩ ((5 : Int), (5 : Int))).2
      (by decide)⟩⟩

/-- C8.  `make_safe_move` leaves the state unchanged, returns `None` exactly
when `safes - moves_made` is empty, and otherwise returns some member of
that set. -/
theorem make_safe_move_characterization (a : MinesweeperAI) :
    (a.make_safe_move).2 = a ∧
    ((a.make_safe_move).1 = none ↔ a.safes \ a.moves_made = ∅) ∧
    (a.safes \ a.moves_made ≠ ∅ →
      ∃ c ∈ a.safes \ a.moves_made, (a.make_safe_move).1 = some c) := by
  unfold MinesweeperAI.make_safe_move
  by_cases h : a.safes \ a.moves_made = ∅
  · rw [dif_pos h]
    exact ⟨rfl, by simp [h], fun hne => absurd h hne⟩
  · rw [dif_neg h]
    refine ⟨rfl, by simp [h], fun _ => ?_⟩
    have hmem := Finset.min'_mem ((a.safes \ a.moves_made).image encCell)
      ((Finset.nonempty_iff_ne_empty.mpr h).image encCell)
    rw [Finset.mem_image] at hmem
    obtain ⟨c, hc, hcode⟩ := hmem
    exact ⟨c, hc, by rw [← hcode, decCell_encCell]⟩

/-- Witness for C8 at a concrete state with one safe unprobed cell. -/
theorem make_safe_move_characterization_witness :
    miniAI.safes \ miniAI.moves_made ≠ ∅ ∧
    ∃ c ∈ miniAI.safes \ miniAI.moves_made, (miniAI.make_safe_move).1 = some c :=
  ⟨by decide, (make_safe_move_characterization miniAI).2.2 (by decide)⟩

lemma resolvePair_height (a : MinesweeperAI) (s t : Sentence) :
    (resolvePair a s t).height = a.height := by
  unfold resolvePair; split_ifs <;> rfl

lemma resolvePair_width (a : MinesweeperAI) (s t : Sentence) :
    (resolvePair a s t).width = a.width := by
  unfold resolvePair; split_ifs <;> rfl

lemma removeSuresStep_height (st : MinesweeperAI × List Nat) (k : Nat) :
    (removeSuresStep st k).1.height = st.1.height := by
  unfold removeSuresStep; split_ifs <;> rfl

lemma removeSuresStep_width (st : MinesweeperAI × List Nat) (k : Nat) :
    (removeSuresStep st k).1.width = st.1.width := by
  unfold removeSuresStep; split_ifs <;> rfl

lemma conclusionPass_dims (a : MinesweeperAI) :
    (conclusionPass a).height = a.height ∧ (conclusionPass a).width = a.width := by
  unfold conclusionPass
  exact foldl_preserve (fun x => x.height = a.height ∧ x.width = a.width)
    processPair
    (fun s x hs => by
      unfold processPair
      exact ⟨(resolvePair_height _ _ _).trans hs.1, (resolvePair_width _ _ _).trans hs.2⟩)
    _ a ⟨rfl, rfl⟩

lemma keptOf_dims (a : MinesweeperAI) :
    (keptOf a).1.height = a.height ∧ (keptOf a).1.width = a.width := by
  unfold keptOf
  exact foldl_preserve
    (fun st : MinesweeperAI × List Nat => st.1.height = a.height ∧ st.1.width = a.width)
    removeSuresStep
    (fun s x hs => ⟨(removeSuresStep_height _ _).trans hs.1,
                    (removeSuresStep_width _ _).trans hs.2⟩)
    (List.range a.knowledge.length) (a, []) ⟨rfl, rfl⟩

lemma remove_sures_dims (a : MinesweeperAI) :
    a.remove_sures.height = a.height ∧ a.remove_sures.width = a.width :=
  keptOf_dims a

lemma add_knowledge_dims (a : MinesweeperAI) (cell : Cell) (count : Int) :
    (a.add_knowledge cell count).height = a.height ∧
    (a.add_knowledge cell count).width = a.width := by
  unfold MinesweeperAI.add_knowledge dedupStage
  constructor
  · rw [(remove_sures_dims _).1]
    exact (conclusionPass_dims _).1
  · rw [(remove_sures_dims _).2]
    exact (conclusionPass_dims _).2

/-- Growth of the three fact sets between two states. -/
def grows (a b : MinesweeperAI) : Prop :=
  a.mines ⊆ b.mines ∧ a.safes ⊆ b.safes ∧ a.moves_made ⊆ b.moves_made

lemma grows_refl (a : MinesweeperAI) : grows a a :=
  ⟨subset_rfl, subset_rfl, subset_rfl⟩

lemma grows_trans {a b c : MinesweeperAI} (h1 : grows a b) (h2 : grows b c) :
    grows a c :=
  ⟨h1.1.trans h2.1, h1.2.1.trans h2.2.1, h1.2.2.trans h2.2.2⟩

lemma grows_markMineSet (a : MinesweeperAI) (D : Finset Cell) :
    grows a (a.markMineSet D) :=
  ⟨Finset.subset_union_left, subset_rfl, subset_rfl⟩

lemma grows_markSafeSet (a : MinesweeperAI) (D : Finset Cell) :
    grows a (a.markSafeSet D) :=
  ⟨subset_rfl, Finset.subset_union_left, subset_rfl⟩

lemma grows_resolvePair (a : MinesweeperAI) (s t : Sentence) :
    grows a (resolvePair a s t) := by
  unfold resolvePair
  split_ifs <;>
    first
      | exact grows_refl a
      | exact grows_markSafeSet a _
      | exact grows_markMineSet a _

lemma grows_conclusionPass (a : MinesweeperAI) : grows a (conclusionPass a) := by
  unfold conclusionPass
  exact foldl_rel grows processPair grows_refl (fun _ _ _ => grows_trans)
    (fun s k => grows_resolvePair s _ _) _ a

lemma grows_removeSuresStep (st : MinesweeperAI × List Nat) (k : Nat) :
    grows st.1 (removeSuresStep st k).1 := by
  unfold removeSuresStep
  split_ifs <;>
    first
      | exact grows_refl _
      | exact grows_markSafeSet _ _
      | exact grows_markMineSet _ _

lemma grows_remove_sures (a : MinesweeperAI) : grows a a.remove_sures := by
  have h := foldl_rel (fun x y : MinesweeperAI × List Nat => grows x.1 y.1)
    removeSuresStep (fun x => grows_refl x.1) (fun _ _ _ => grows_trans)
    grows_removeSuresStep (List.range a.knowledge.length) (a, [])
  exact h

lemma grows_probeState (a : MinesweeperAI) (cell : Cell) :
    grows a (a.probeState cell) :=
  ⟨subset_rfl, Finset.subset_insert _ _, Finset.subset_insert _ _⟩

lemma grows_withKnowledge (a : MinesweeperAI) (l : List Sentence) :
    grows a (withKnowledge a l) :=
  ⟨subset_rfl, subset_rfl, subset_rfl⟩

lemma grows_appendStage (a : MinesweeperAI) (cell : Cell) (count : Int) :
    grows a (appendStage a cell count) :=
  grows_trans (grows_probeState a cell)
    (grows_withKnowledge (a.probeState cell)
      ((a.probeState cell).knowledge ++ [a.addedSentence cell count]))

lemma grows_dedupStage (a : MinesweeperAI) (cell : Cell) (count : Int) :
    grows a (dedupStage a cell count) :=
  grows_trans (grows_appendStage a cell count)
    (grows_trans (grows_conclusionPass (appendStage a cell count))
      (grows_withKnowledge (conclusionPass (appendStage a cell count))
        (remove_duplicates (conclusionPass (appendStage a cell count)).knowledge)))

lemma grows_add_knowledge (a : MinesweeperAI) (cell : Cell) (count : Int) :
    grows a (a.add_knowledge cell count) :=
  grows_trans (grows_dedupStage a cell count)
    (grows_remove_sures (dedupStage a cell count))

/-- C7.  Across any sequence of `add_knowledge` calls the sets of known
mines, known safes and made moves only grow: every member before the calls
is still a member after them. -/
theorem fact_sets_monotone (a : MinesweeperAI) (l : List (Cell × Int)) :
    a.mines ⊆ (applyUpdates a l).mines ∧
    a.safes ⊆ (applyUpdates a l).safes ∧
    a.moves_made ⊆ (applyUpdates a l).moves_made :=
  foldl_rel grows (fun (x : MinesweeperAI) (p : Cell × Int) => x.add_knowledge p.1 p.2)
    grows_refl (fun _ _ _ h1 h2 => grows_trans h1 h2)
    (fun x p => grows_add_knowledge x p.1 p.2) l a

/-- Invariant: no cell of any held sentence is already resolved (in `mines`
or `safes`). -/
def fencedKB (a : MinesweeperAI) : Prop :=
  ∀ s ∈ a.knowledge, ∀ c ∈ s.cells, c ∉ a.mines ∧ c ∉ a.safes

lemma fencedKB_markMineSet {a : MinesweeperAI} (h : fencedKB a) (D : Finset Cell) :
    fencedKB (a.markMineSet D) := by
  intro s hs c hc
  simp only [MinesweeperAI.markMineSet, List.mem_map] at hs
  obtain ⟨t, ht, rfl⟩ := hs
  have hc' : c ∈ t.cells \ D := hc
  rw [Finset.mem_sdiff] at hc'
  have h1 := h t ht c hc'.1
  refine ⟨?_, h1.2⟩
  show c ∉ a.mines ∪ D
  rw [Finset.mem_union]
  rintro (h2 | h2)
  · exact h1.1 h2
  · exact hc'.2 h2

lemma fencedKB_markSafeSet {a : MinesweeperAI} (h : fencedKB a) (D : Finset Cell) :
    fencedKB (a.markSafeSet D) := by
  intro s hs c hc
  simp only [MinesweeperAI.markSafeSet, List.mem_map] at hs
  obtain ⟨t, ht, rfl⟩ := hs
  have hc' : c ∈ t.cells \ D := hc
  rw [Finset.mem_sdiff] at hc'
  have h1 := h t ht c hc'.1
  refine ⟨h1.1, ?_⟩
  show c ∉ a.safes ∪ D
  rw [Finset.mem_union]
  rintro (h2 | h2)
  · exact h1.2 h2
  · exact hc'.2 h2

lemma fencedKB_mark_safe {a : MinesweeperAI} (h : fencedKB a) (cell : Cell) :
    fencedKB (a.mark_safe cell) := by
  intro s hs c hc
  simp only [MinesweeperAI.mark_safe, List.mem_map] at hs
  obtain ⟨t, ht, rfl⟩ := hs
  have hc' : c ∈ t.cells.erase cell := hc
  have h1 := h t ht c (Finset.mem_of_mem_erase hc')
  refine ⟨h1.1, ?_⟩
  show c ∉ insert cell a.safes
  rw [Finset.mem_insert]
  rintro (h2 | h2)
  · exact Finset.ne_of_mem_erase hc' h2
  · exact h1.2 h2

lemma fencedKB_probeState {a : MinesweeperAI} (h : fencedKB a) (cell : Cell) :
    fencedKB (a.probeState cell) :=
  fencedKB_mark_safe h cell

lemma fencedKB_appendStage {a : MinesweeperAI} (h : fencedKB a) (cell : Cell)
    (count : Int) : fencedKB (appendStage a cell count) := by
  intro s hs c hc
  rcases List.mem_append.mp hs with h1 | h1
  · exact fencedKB_probeState h cell s h1 c hc
  · simp only [List.mem_singleton] at h1
    subst h1
    have h2 := Finset.mem_filter.mp hc
    exact ⟨h2.2.2.2.2, h2.2.2.2.1⟩

lemma fencedKB_resolvePair {a : MinesweeperAI} (h : fencedKB a) (s t : Sentence) :
    fencedKB (resolvePair a s t) := by
  unfold resolvePair
  split_ifs <;>
    first
      | exact h
      | exact fencedKB_markSafeSet h _
      | exact fencedKB_markMineSet h _

lemma fencedKB_conclusionPass {a : MinesweeperAI} (h : fencedKB a) :
    fencedKB (conclusionPass a) :=
  foldl_preserve fencedKB processPair
    (fun x k hx => fencedKB_resolvePair hx _ _) _ a h

lemma fencedKB_withKnowledge_sub {a : MinesweeperAI} {l : List Sentence}
    (h : fencedKB a) (hsub : ∀ s ∈ l, s ∈ a.knowledge) :
    fencedKB (withKnowledge a l) :=
  fun s hs c hc => h s (hsub s hs) c hc

lemma fencedKB_removeSuresStep {st : MinesweeperAI × List Nat}
    (h : fencedKB st.1) (k : Nat) : fencedKB (removeSuresStep st k).1 := by
  unfold removeSuresStep
  split_ifs <;>
    first
      | exact h
      | exact fencedKB_markSafeSet h _
      | exact fencedKB_markMineSet h _

lemma fencedKB_keptOf {a : MinesweeperAI} (h : fencedKB a) : fencedKB (keptOf a).1 :=
  foldl_preserve (fun st : MinesweeperAI × List Nat => fencedKB st.1) removeSuresStep
    (fun st k hst => fencedKB_removeSuresStep hst k) _ (a, []) h

lemma fencedKB_remove_sures {a : MinesweeperAI} (h : fencedKB a) :
    fencedKB a.remove_sures := by
  have h1 := fencedKB_keptOf h
  intro s hs c hc
  have hs' : s ∈ (keptOf a).2.map (fun k => nthS (keptOf a).1.knowledge k) := hs
  simp only [List.mem_map] at hs'
  obtain ⟨k, hk, rfl⟩ := hs'
  rcases nthS_mem (keptOf a).1.knowledge k with hm | hd
  · exact h1 _ hm c hc
  · rw [hd] at hc
    exact absurd hc (by simp)

lemma fencedKB_add_knowledge {a : MinesweeperAI} (h : fencedKB a) (cell : Cell)
    (count : Int) : fencedKB (a.add_knowledge cell count) := by
  apply fencedKB_remove_sures
  apply fencedKB_withKnowledge_sub
    (fencedKB_conclusionPass (fencedKB_appendStage h cell count))
  exact fun s hs => mem_remove_duplicates hs

/-- C9.  After any sequence of `add_knowledge` calls from a fresh state, no
cell of any held sentence is in `mines` or in `safes`. -/
theorem sentences_avoid_resolved_cells (h w : Nat) (l : List (Cell × Int))
    (s : Sentence) (c : Cell)
    (hs : s ∈ (applyUpdates (MinesweeperAI.init h w) l).knowledge)
    (hc : c ∈ s.cells) :
    c ∉ (applyUpdates (MinesweeperAI.init h w) l).mines ∧
    c ∉ (applyUpdates (MinesweeperAI.init h w) l).safes := by
  have key : fencedKB (applyUpdates (MinesweeperAI.init h w) l) :=
    foldl_preserve fencedKB
      (fun (x : MinesweeperAI) (p : Cell × Int) => x.add_knowledge p.1 p.2)
      (fun x p hx => fencedKB_add_knowledge hx p.1 p.2) l _
      (fun t ht => absurd ht (List.not_mem_nil t))
  exact key s hs c hc

/-- Witness for C9 on a concrete one-probe state. -/
theorem sentences_avoid_resolved_cells_witness :
    (⟨{((0 : Int), (0 : Int)), ((0 : Int), (2 : Int))}, 1⟩ : Sentence) ∈ kbAI.knowledge ∧
    ((0 : Int), (0 : Int)) ∈
      (⟨{((0 : Int), (0 : Int)), ((0 : Int), (2 : Int))}, 1⟩ : Sentence).cells ∧
    (((0 : Int), (0 : Int)) ∉ kbAI.mines ∧ ((0 : Int), (0 : Int)) ∉ kbAI.safes) :=
  ⟨by decide, by decide,
   sentences_avoid_resolved_cells 1 3 [(((0 : Int), (1 : Int)), (1 : Int))]
     ⟨{((0 : Int), (0 : Int)), ((0 : Int), (2 : Int))}, 1⟩ ((0 : Int), (0 : Int))
     (by decide) (by decide)⟩

/-- Invariant: the grid dimensions are fixed and every cell of every held
sentence lies within the grid. -/
def inGridKB (h w : Nat) (a : MinesweeperAI) : Prop :=
  a.height = h ∧ a.width = w ∧ ∀ s ∈ a.knowledge, ∀ c ∈ s.cells, inB h w c

lemma inGridKB_markMineSet {h w : Nat} {a : MinesweeperAI} (hI : inGridKB h w a)
    (D : Finset Cell) : inGridKB h w (a.markMineSet D) := by
  refine ⟨hI.1, hI.2.1, ?_⟩
  intro s hs c hc
  simp only [MinesweeperAI.markMineSet, List.mem_map] at hs
  obtain ⟨t, ht, rfl⟩ := hs
  have hc' : c ∈ t.cells \ D := hc
  exact hI.2.2 t ht c (Finset.mem_sdiff.mp hc').1

lemma inGridKB_markSafeSet {h w : Nat} {a : MinesweeperAI} (hI : inGridKB h w a)
    (D : Finset Cell) : inGridKB h w (a.markSafeSet D) := by
  refine ⟨hI.1, hI.2.1, ?_⟩
  intro s hs c hc
  simp only [MinesweeperAI.markSafeSet, List.mem_map] at hs
  obtain ⟨t, ht, rfl⟩ := hs
  have hc' : c ∈ t.cells \ D := hc
  exact hI.2.2 t ht c (Finset.mem_sdiff.mp hc').1

lemma inGridKB_probeState {h w : Nat} {a : MinesweeperAI} (hI : inGridKB h w a)
    (cell : Cell) : inGridKB h w (a.probeState cell) := by
  refine ⟨hI.1, hI.2.1, ?_⟩
  intro s hs c hc
  simp only [MinesweeperAI.probeState, MinesweeperAI.mark_safe, List.mem_map] at hs
  obtain ⟨t, ht, rfl⟩ := hs
  have hc' : c ∈ t.cells.erase cell := hc
  exact hI.2.2 t ht c (Finset.mem_of_mem_erase hc')

lemma inGridKB_appendStage {h w : Nat} {a : MinesweeperAI} (hI : inGridKB h w a)
    (cell : Cell) (count : Int) : inGridKB h w (appendStage a cell count) := by
  refine ⟨hI.1, hI.2.1, ?_⟩
  intro s hs c hc
  rcases List.mem_append.mp hs with h1 | h1
  · exact (inGridKB_probeState hI cell).2.2 s h1 c hc
  · simp only [List.mem_singleton] at h1
    subst h1
    have h2 : inB a.height a.width c := (Finset.mem_filter.mp hc).2.1
    rw [hI.1, hI.2.1] at h2
    exact h2

lemma inGridKB_resolvePair {h w : Nat} {a : MinesweeperAI} (hI : inGridKB h w a)
    (s t : Sentence) : inGridKB h w (resolvePair a s t) := by
  unfold resolvePair
  split_ifs <;>
    first
      | exact hI
      | exact inGridKB_markSafeSet hI _
      | exact inGridKB_markMineSet hI _

lemma inGridKB_conclusionPass {h w : Nat} {a : MinesweeperAI} (hI : inGridKB h w a) :
    inGridKB h w (conclusionPass a) :=
  foldl_preserve (inGridKB h w) processPair
    (fun x _ hx => inGridKB_resolvePair hx _ _) _ a hI

lemma inGridKB_withKnowledge_sub {h w : Nat} {a : MinesweeperAI} {l : List Sentence}
    (hI : inGridKB h w a) (hsub : ∀ s ∈ l, s ∈ a.knowledge) :
    inGridKB h w (withKnowledge a l) :=
  ⟨hI.1, hI.2.1, fun s hs c hc => hI.2.2 s (hsub s hs) c hc⟩

lemma inGridKB_removeSuresStep {h w : Nat} {st : MinesweeperAI × List Nat}
    (hI : inGridKB h w st.1) (k : Nat) : inGridKB h w (removeSuresStep st k).1 := by
  unfold removeSuresStep
  split_ifs <;>
    first
      | exact hI
      | exact inGridKB_markSafeSet hI _
      | exact inGridKB_markMineSet hI _

lemma inGridKB_keptOf {h w : Nat} {a : MinesweeperAI} (hI : inGridKB h w a) :
    inGridKB h w (keptOf a).1 :=
  foldl_preserve (fun st : MinesweeperAI × List Nat => inGridKB h w st.1)
    removeSuresStep (fun st k hst => inGridKB_removeSuresStep hst k) _ (a, []) hI

lemma inGridKB_remove_sures {h w : Nat} {a : MinesweeperAI} (hI : inGridKB h w a) :
    inGridKB h w a.remove_sures := by
  have h1 := inGridKB_keptOf hI
  refine ⟨h1.1, h1.2.1, ?_⟩
  intro s hs c hc
  have hs' : s ∈ (keptOf a).2.map (fun k => nthS (keptOf a).1.knowledge k) := hs
  simp only [List.mem_map] at hs'
  obtain ⟨k, _, rfl⟩ := hs'
  rcases nthS_mem (keptOf a).1.knowledge k with hm | hd
  · exact h1.2.2 _ hm c hc
  · rw [hd] at hc
    exact absurd hc (by simp)

lemma inGridKB_add_knowledge {h w : Nat} {a : MinesweeperAI} (hI : inGridKB h w a)
    (cell : Cell) (count : Int) : inGridKB h w (a.add_knowledge cell count) := by
  apply inGridKB_remove_sures
  apply inGridKB_withKnowledge_sub
    (inGridKB_conclusionPass (inGridKB_appendStage hI cell count))
  exact fun s hs => mem_remove_duplicates hs

/-- C10.  After any sequence of `add_knowledge` calls from a fresh state of
dimensions `h x w`, every cell of every held sentence lies within the grid. -/
theorem sentences_within_grid (h w : Nat) (l : List (Cell × Int)) (s : Sentence)
    (c : Cell) (hs : s ∈ (applyUpdates (MinesweeperAI.init h w) l).knowledge)
    (hc : c ∈ s.cells) : inB h w c := by
  have key : inGridKB h w (applyUpdates (MinesweeperAI.init h w) l) :=
    foldl_preserve (inGridKB h w)
      (fun (x : MinesweeperAI) (p : Cell × Int) => x.add_knowledge p.1 p.2)
      (fun x p hx => inGridKB_add_knowledge hx p.1 p.2) l _
      ⟨rfl, rfl, fun t ht => absurd ht (List.not_mem_nil t)⟩
  exact key.2.2 s hs c hc

/-- Witness for C10 on a concrete one-probe state. -/
theorem sentences_within_grid_witness :
    (⟨{((0 : Int), (0 : Int)), ((0 : Int), (2 : Int))}, 1⟩ : Sentence) ∈ kbAI.knowledge ∧
    ((0 : Int), (2 : Int)) ∈
      (⟨{((0 : Int), (0 : Int)), ((0 : Int), (2 : Int))}, 1⟩ : Sentence).cells ∧
    inB 1 3 ((0 : Int), (2 : Int)) :=
  ⟨by decide, by decide,
   sentences_within_grid 1 3 [(((0 : Int), (1 : Int)), (1 : Int))]
     ⟨{((0 : Int), (0 : Int)), ((0 : Int), (2 : Int))}, 1⟩ ((0 : Int), (2 : Int))
     (by decide) (by decide)⟩

/-- A sentence is exact for a hazard placement `M` when its count equals the
number of its cells lying in `M`. -/
def exactFor (M : Finset Cell) (s : Sentence) : Prop :=
  s.count = ((s.cells.filter (fun p => p ∈ M)).card : Int)

/-- Soundness of a state for a hazard placement `M` on an `h x w` grid. -/
def Sound (M : Finset Cell) (h w : Nat) (a : MinesweeperAI) : Prop :=
  a.height = h ∧ a.width = w ∧ a.mines ⊆ M ∧ (∀ c ∈ a.safes, c ∉ M) ∧
  ∀ s ∈ a.knowledge, exactFor M s

lemma exactFor_nthS {M : Finset Cell} {h w : Nat} {a : MinesweeperAI}
    (hS : Sound M h w a) (k : Nat) : exactFor M (nthS a.knowledge k) := by
  rcases nthS_mem a.knowledge k with hm | hd
  · exact hS.2.2.2.2 _ hm
  · rw [hd]
    unfold exactFor
    simp

lemma exactFor_markSafeSet {M : Finset Cell} {t : Sentence} (ht : exactFor M t)
    {D : Finset Cell} (hD : ∀ d ∈ D, d ∉ M) : exactFor M (t.markSafeSet D) := by
  show t.count = (((t.cells \ D).filter (fun p => p ∈ M)).card : Int)
  have heq : (t.cells \ D).filter (fun p => p ∈ M) = t.cells.filter (fun p => p ∈ M) := by
    ext x
    simp only [Finset.mem_filter, Finset.mem_sdiff]
    constructor
    · rintro ⟨⟨hx, _⟩, hm⟩
      exact ⟨hx, hm⟩
    · rintro ⟨hx, hm⟩
      exact ⟨⟨hx, fun hd => hD x hd hm⟩, hm⟩
  rw [heq]
  exact ht

lemma exactFor_markMineSet {M : Finset Cell} {t : Sentence} (ht : exactFor M t)
    {D : Finset Cell} (hD : D ⊆ M) : exactFor M (t.markMineSet D) := by
  show t.count - ((t.cells ∩ D).card : Int)
      = (((t.cells \ D).filter (fun p => p ∈ M)).card : Int)
  have h1 : (t.cells \ D).filter (fun p => p ∈ M)
      = (t.cells.filter (fun p => p ∈ M)) \ (t.cells ∩ D) := by
    ext x
    simp only [Finset.mem_filter, Finset.mem_sdiff, Finset.mem_inter]
    constructor
    · rintro ⟨⟨hx, hxd⟩, hm⟩
      exact ⟨⟨hx, hm⟩, fun hc => hxd hc.2⟩
    · rintro ⟨⟨hx, hm⟩, hnd⟩
      exact ⟨⟨hx, fun hd => hnd ⟨hx, hd⟩⟩, hm⟩
  have h2 : t.cells ∩ D ⊆ t.cells.filter (fun p => p ∈ M) := by
    intro x hx
    rw [Finset.mem_inter] at hx
    exact Finset.mem_filter.mpr ⟨hx.1, hD hx.2⟩
  rw [h1, Finset.card_sdiff h2, Nat.cast_sub (Finset.card_le_card h2), ht]

lemma exactFor_mark_safe {M : Finset Cell} {t : Sentence} (ht : exactFor M t)
    {cell : Cell} (hc : cell ∉ M) : exactFor M (t.mark_safe cell) := by
  show t.count = (((t.cells.erase cell).filter (fun p => p ∈ M)).card : Int)
  have heq : (t.cells.erase cell).filter (fun p => p ∈ M)
      = t.cells.filter (fun p => p ∈ M) := by
    ext x
    simp only [Finset.mem_filter, Finset.mem_erase]
    constructor
    · rintro ⟨⟨_, hx⟩, hm⟩
      exact ⟨hx, hm⟩
    · rintro ⟨hx, hm⟩
      exact ⟨⟨fun he => hc (he ▸ hm), hx⟩, hm⟩
  rw [heq]
  exact ht

lemma sound_markSafeSet {M : Finset Cell} {h w : Nat} {a : MinesweeperAI}
    (hS : Sound M h w a) {D : Finset Cell} (hD : ∀ d ∈ D, d ∉ M) :
    Sound M h w (a.markSafeSet D) := by
  refine ⟨hS.1, hS.2.1, hS.2.2.1, ?_, ?_⟩
  · intro c hc
    have hc' : c ∈ a.safes ∪ D := hc
    rcases Finset.mem_union.mp hc' with h1 | h1
    · exact hS.2.2.2.1 c h1
    · exact hD c h1
  · intro s hs
    have hs' : s ∈ a.knowledge.map (fun t => t.markSafeSet D) := hs
    simp only [List.mem_map] at hs'
    obtain ⟨t, ht, rfl⟩ := hs'
    exact exactFor_markSafeSet (hS.2.2.2.2 t ht) hD

lemma sound_markMineSet {M : Finset Cell} {h w : Nat} {a : MinesweeperAI}
    (hS : Sound M h w a) {D : Finset Cell} (hD : D ⊆ M) :
    Sound M h w (a.markMineSet D) := by
  refine ⟨hS.1, hS.2.1, ?_, hS.2.2.2.1, ?_⟩
  · intro c hc
    have hc' : c ∈ a.mines ∪ D := hc
    rcases Finset.mem_union.mp hc' with h1 | h1
    · exact hS.2.2.1 h1
    · exact hD h1
  · intro s hs
    have hs' : s ∈ a.knowledge.map (fun t => t.markMineSet D) := hs
    simp only [List.mem_map] at hs'
    obtain ⟨t, ht, rfl⟩ := hs'
    exact exactFor_markMineSet (hS.2.2.2.2 t ht) hD

lemma sound_probeState {M : Finset Cell} {h w : Nat} {a : MinesweeperAI}
    (hS : Sound M h w a) {cell : Cell} (hc : cell ∉ M) :
    Sound M h w (a.probeState cell) := by
  refine ⟨hS.1, hS.2.1, hS.2.2.1, ?_, ?_⟩
  · intro c hcs
    have hc' : c ∈ insert cell a.safes := hcs
    rcases Finset.mem_insert.mp hc' with h1 | h1
    · exact h1 ▸ hc
    · exact hS.2.2.2.1 c h1
  · intro s hs
    have hs' : s ∈ a.knowledge.map (fun t => t.mark_safe cell) := hs
    simp only [List.mem_map] at hs'
    obtain ⟨t, ht, rfl⟩ := hs'
    exact exactFor_mark_safe (hS.2.2.2.2 t ht) hc

lemma diff_filter_card {M s t : Finset Cell} (hsub : t ⊆ s) :
    (s.filter (fun p => p ∈ M)).card
      = (t.filter (fun p => p ∈ M)).card + ((s \ t).filter (fun p => p ∈ M)).card := by
  have hu : t ∪ s \ t = s := Finset.union_sdiff_of_subset hsub
  have h2 : ((t ∪ s \ t).filter (fun p => p ∈ M)).card
      = (t.filter (fun p => p ∈ M)).card + ((s \ t).filter (fun p => p ∈ M)).card := by
    rw [Finset.filter_union, Finset.card_union_of_disjoint
      (Finset.disjoint_filter_filter Finset.disjoint_sdiff)]
  rw [← h2, hu]

lemma sound_resolvePair {M : Finset Cell} {h w : Nat} {a : MinesweeperAI}
    (hS : Sound M h w a) {s t : Sentence}
    (es : exactFor M s) (et : exactFor M t) : Sound M h w (resolvePair a s t) := by
  unfold exactFor at es et
  unfold resolvePair
  split_ifs with h1 h2 h3 h4 h5 h6 h7
  · exact hS
  · apply sound_markSafeSet hS
    intro d hd hdM
    have hcard := diff_filter_card (M := M) h2
    have hz : (((s.cells \ t.cells).filter (fun p => p ∈ M)).card : Int) = 0 := by omega
    have hz' : ((s.cells \ t.cells).filter (fun p => p ∈ M)) = ∅ :=
      Finset.card_eq_zero.mp (by exact_mod_cast hz)
    have hmem : d ∈ (s.cells \ t.cells).filter (fun p => p ∈ M) :=
      Finset.mem_filter.mpr ⟨hd, hdM⟩
    rw [hz'] at hmem
    exact absurd hmem (Finset.not_mem_empty d)
  · apply sound_markMineSet hS
    have hcard := diff_filter_card (M := M) h2
    have hD : (s.cells \ t.cells).card
        = ((s.cells \ t.cells).filter (fun p => p ∈ M)).card := by omega
    have heq := Finset.eq_of_subset_of_card_le
      (Finset.filter_subset (fun p => p ∈ M) (s.cells \ t.cells)) (le_of_eq hD)
    intro d hd
    rw [← heq] at hd
    exact (Finset.mem_filter.mp hd).2
  · exact hS
  · apply sound_markSafeSet hS
    intro d hd hdM
    have hcard := diff_filter_card (M := M) h5
    have hz : (((t.cells \ s.cells).filter (fun p => p ∈ M)).card : Int) = 0 := by omega
    have hz' : ((t.cells \ s.cells).filter (fun p => p ∈ M)) = ∅ :=
      Finset.card_eq_zero.mp (by exact_mod_cast hz)
    have hmem : d ∈ (t.cells \ s.cells).filter (fun p => p ∈ M) :=
      Finset.mem_filter.mpr ⟨hd, hdM⟩
    rw [hz'] at hmem
    exact absurd hmem (Finset.not_mem_empty d)
  · apply sound_markMineSet hS
    have hcard := diff_filter_card (M := M) h5
    have hD : (t.cells \ s.cells).card
        = ((t.cells \ s.cells).filter (fun p => p ∈ M)).card := by omega
    have heq := Finset.eq_of_subset_of_card_le
      (Finset.filter_subset (fun p => p ∈ M) (t.cells \ s.cells)) (le_of_eq hD)
    intro d hd
    rw [← heq] at hd
    exact (Finset.mem_filter.mp hd).2
  · exact hS
  · exact hS

lemma sound_conclusionPass {M : Finset Cell} {h w : Nat} {a : MinesweeperAI}
    (hS : Sound M h w a) : Sound M h w (conclusionPass a) :=
  foldl_preserve (Sound M h w) processPair
    (fun x k hx => sound_resolvePair hx (exactFor_nthS hx _) (exactFor_nthS hx _)) _ a hS

lemma sound_appendStage {M : Finset Cell} {h w : Nat} {a : MinesweeperAI}
    {cell : Cell} (hS : Sound M h w a) (hM : ∀ m ∈ M, inB h w m) (hc : cell ∉ M) :
    Sound M h w (appendStage a cell (nearby_mines M h w cell : Int)) := by
  have hPS := sound_probeState hS hc
  refine ⟨hPS.1, hPS.2.1, hPS.2.2.1, hPS.2.2.2.1, ?_⟩
  intro s hs
  rcases List.mem_append.mp hs with h1 | h1
  · exact hPS.2.2.2.2 s h1
  · simp only [List.mem_singleton] at h1
    subst h1
    show (↑(nearby_mines M h w cell) : Int)
        - (((boxOf cell).filter (fun p => p ∈ a.mines)).card : Int)
      = ((((boxOf cell).filter
            (fun p => inB a.height a.width p ∧ p ≠ cell ∧
              p ∉ insert cell a.safes ∧ p ∉ a.mines)).filter
          (fun p => p ∈ M)).card : Int)
    obtain ⟨hh, hw, hmsub, hsafes, _⟩ := hS
    simp only [hh, hw]
    have e1 : (boxOf cell).filter (fun p => p ∈ a.mines)
        = (inBoundsNeighbors h w cell).filter (fun p => p ∈ a.mines) := by
      ext x
      simp only [inBoundsNeighbors, Finset.mem_filter]
      constructor
      · rintro ⟨hb, hm⟩
        exact ⟨⟨hb, fun he => hc (he ▸ hmsub hm), hM x (hmsub hm)⟩, hm⟩
      · rintro ⟨⟨hb, _, _⟩, hm⟩
        exact ⟨hb, hm⟩
    have e2 : ((boxOf cell).filter
          (fun p => inB h w p ∧ p ≠ cell ∧ p ∉ insert cell a.safes ∧ p ∉ a.mines)).filter
            (fun p => p ∈ M)
        = ((inBoundsNeighbors h w cell).filter (fun p => p ∈ M))
          \ ((inBoundsNeighbors h w cell).filter (fun p => p ∈ a.mines)) := by
      ext x
      simp only [inBoundsNeighbors, Finset.mem_filter, Finset.mem_sdiff, Finset.mem_insert]
      constructor
      · rintro ⟨⟨hb, hib, hne, hns, hnm⟩, hm⟩
        refine ⟨⟨⟨hb, hne, hib⟩, hm⟩, ?_⟩
        rintro ⟨_, hmm⟩
        exact hnm hmm
      · rintro ⟨⟨⟨hb, hne, hib⟩, hm⟩, hnot⟩
        refine ⟨⟨hb, hib, hne, ?_, ?_⟩, hm⟩
        · rintro (he | hsa)
          · exact hne he
          · exact hsafes x hsa hm
        · intro hmm
          exact hnot ⟨⟨hb, hne, hib⟩, hmm⟩
    have hsub2 : (inBoundsNeighbors h w cell).filter (fun p => p ∈ a.mines)
        ⊆ (inBoundsNeighbors h w cell).filter (fun p => p ∈ M) := by
      intro x hx
      rw [Finset.mem_filter] at hx ⊢
      exact ⟨hx.1, hmsub hx.2⟩
    rw [e2, Finset.card_sdiff hsub2, Nat.cast_sub (Finset.card_le_card hsub2), e1]
    rfl

lemma known_mines_truthy {M : Finset Cell} {s : Sentence} (es : exactFor M s)
    (h1 : (s.known_mines.getD ∅).Nonempty) :
    s.known_mines.getD ∅ = s.cells ∧ s.cells ⊆ M := by
  unfold exactFor at es
  unfold Sentence.known_mines at h1 ⊢
  split_ifs at h1 ⊢ with hcond
  · refine ⟨rfl, ?_⟩
    have hcard : s.cells.card ≤ (s.cells.filter (fun p => p ∈ M)).card := by omega
    have heq := Finset.eq_of_subset_of_card_le
      (Finset.filter_subset (fun p => p ∈ M) s.cells) hcard
    intro x hx
    rw [← heq] at hx
    exact (Finset.mem_filter.mp hx).2
  · simp at h1

lemma known_safes_truthy {M : Finset Cell} {s : Sentence} (es : exactFor M s)
    (h2 : (s.known_safes.getD ∅).Nonempty) :
    s.known_safes.getD ∅ = s.cells ∧ ∀ d ∈ s.cells, d ∉ M := by
  unfold exactFor at es
  unfold Sentence.known_safes at h2 ⊢
  split_ifs at h2 ⊢ with hcond
  · refine ⟨rfl, ?_⟩
    have hzero : (s.cells.filter (fun p => p ∈ M)).card = 0 := by omega
    have hz := Finset.card_eq_zero.mp hzero
    intro d hd hdm
    have hmem : d ∈ s.cells.filter (fun p => p ∈ M) := Finset.mem_filter.mpr ⟨hd, hdm⟩
    rw [hz] at hmem
    exact absurd hmem (Finset.not_mem_empty d)
  · simp at h2

lemma sound_removeSuresStep {M : Finset Cell} {h w : Nat}
    {st : MinesweeperAI × List Nat} (hS : Sound M h w st.1) (k : Nat) :
    Sound M h w (removeSuresStep st k).1 := by
  have es := exactFor_nthS hS k
  unfold removeSuresStep
  split_ifs with h1 h2
  · show Sound M h w
      (st.1.markMineSet ((nthS st.1.knowledge k).known_mines.getD ∅))
    obtain ⟨heq, hsub⟩ := known_mines_truthy es h1
    rw [heq]
    exact sound_markMineSet hS hsub
  · show Sound M h w
      (st.1.markSafeSet ((nthS st.1.knowledge k).known_safes.getD ∅))
    obtain ⟨heq, hall⟩ := known_safes_truthy es h2
    rw [heq]
    exact sound_markSafeSet hS hall
  · exact hS

lemma sound_remove_sures {M : Finset Cell} {h w : Nat} {a : MinesweeperAI}
    (hS : Sound M h w a) : Sound M h w a.remove_sures := by
  have h1 : Sound M h w (keptOf a).1 :=
    foldl_preserve (fun st : MinesweeperAI × List Nat => Sound M h w st.1)
      removeSuresStep (fun st k hst => sound_removeSuresStep hst k) _ (a, []) hS
  refine ⟨h1.1, h1.2.1, h1.2.2.1, h1.2.2.2.1, ?_⟩
  intro s hs
  have hs' : s ∈ (keptOf a).2.map (fun k => nthS (keptOf a).1.knowledge k) := hs
  simp only [List.mem_map] at hs'
  obtain ⟨k, _, rfl⟩ := hs'
  exact exactFor_nthS h1 k

lemma sound_add_knowledge {M : Finset Cell} {h w : Nat} {a : MinesweeperAI}
    {cell : Cell} (hS : Sound M h w a) (hM : ∀ m ∈ M, inB h w m) (hc : cell ∉ M) :
    Sound M h w (a.add_knowledge cell (nearby_mines M h w cell : Int)) := by
  apply sound_remove_sures
  have h2 := sound_conclusionPass (sound_appendStage hS hM hc)
  exact ⟨h2.1, h2.2.1, h2.2.2.1, h2.2.2.2.1,
    fun s hs => h2.2.2.2.2 s (mem_remove_duplicates hs)⟩

/-- C3 (amended).  If every supplied count is the truthful neighbor-mine
count of an in-grid hazard placement `M` and no probed cell is itself a
hazard, then `mines` and `safes` stay disjoint after every `add_knowledge`
call. -/
theorem hazards_safes_disjoint_of_truthful (h w : Nat) (M : Finset Cell)
    (l : List (Cell × Int)) (hM : ∀ m ∈ M, inB h w m)
    (hl : ∀ p ∈ l, p.1 ∉ M ∧ p.2 = (nearby_mines M h w p.1 : Int)) :
    (applyUpdates (MinesweeperAI.init h w) l).mines ∩
      (applyUpdates (MinesweeperAI.init h w) l).safes = ∅ := by
  have key : ∀ (l' : List (Cell × Int)) (a : MinesweeperAI), Sound M h w a →
      (∀ p ∈ l', p.1 ∉ M ∧ p.2 = (nearby_mines M h w p.1 : Int)) →
      Sound M h w (applyUpdates a l') := by
    intro l'
    induction l' with
    | nil => intro a hS _; exact hS
    | cons p ps ih =>
      intro a hS hl'
      have hp := hl' p (List.mem_cons_self p ps)
      have hstep : Sound M h w (a.add_knowledge p.1 p.2) := by
        rw [hp.2]
        exact sound_add_knowledge hS hM hp.1
      have hrw : applyUpdates a (p :: ps) = applyUpdates (a.add_knowledge p.1 p.2) ps := rfl
      rw [hrw]
      exact ih _ hstep (fun q hq => hl' q (List.mem_cons_of_mem p hq))
  have hS := key l (MinesweeperAI.init h w)
    ⟨rfl, rfl, Finset.empty_subset M, fun c hcm => absurd hcm (Finset.not_mem_empty c),
     fun s hs => absurd hs (List.not_mem_nil s)⟩ hl
  rw [Finset.eq_empty_iff_forall_not_mem]
  intro x hx
  rw [Finset.mem_inter] at hx
  exact hS.2.2.2.1 x hx.2 (hS.2.2.1 hx.1)

/-- Witness for the amended C3 on a concrete truthful play. -/
theorem hazards_safes_disjoint_of_truthful_witness :
    (∀ m ∈ mineAt01, inB 1 2 m) ∧
    (∀ p ∈ [(((0 : Int), (0 : Int)), (1 : Int))],
      p.1 ∉ mineAt01 ∧ p.2 = (nearby_mines mineAt01 1 2 p.1 : Int)) ∧
    (applyUpdates (MinesweeperAI.init 1 2) [(((0 : Int), (0 : Int)), (1 : Int))]).mines ∩
      (applyUpdates (MinesweeperAI.init 1 2) [(((0 : Int), (0 : Int)), (1 : Int))]).safes
      = ∅ :=
  ⟨by decide, by decide,
   hazards_safes_disjoint_of_truthful 1 2 mineAt01
     [(((0 : Int), (0 : Int)), (1 : Int))] (by decide) (by decide)⟩

/-- C4 (amended).  Provided every known mine is in-bounds and the probed
cell is not itself in `mines`, the sentence built by `add_knowledge` has as
cells exactly the in-bounds neighbors not already known safe or mine, and
its count is the supplied count minus the number of in-bounds neighbors
already in `mines`.  (Without those provisos the source also decrements the
count for the probed cell itself when it lies in `mines`.) -/
theorem added_sentence_characterization (a : MinesweeperAI) (cell : Cell)
    (count : Int) (h1 : ∀ m ∈ a.mines, inB a.height a.width m)
    (h2 : cell ∉ a.mines) :
    (a.addedSentence cell count).cells
      = (inBoundsNeighbors a.height a.width cell).filter
          (fun p => p ∉ a.safes ∧ p ∉ a.mines) ∧
    (a.addedSentence cell count).count
      = count - (((inBoundsNeighbors a.height a.width cell).filter
          (fun p => p ∈ a.mines)).card : Int) := by
  constructor
  · show (boxOf cell).filter
        (fun p => inB a.height a.width p ∧ p ≠ cell ∧
          p ∉ insert cell a.safes ∧ p ∉ a.mines)
      = (inBoundsNeighbors a.height a.width cell).filter
          (fun p => p ∉ a.safes ∧ p ∉ a.mines)
    ext x
    simp only [inBoundsNeighbors, Finset.mem_filter, Finset.mem_insert]
    constructor
    · rintro ⟨hb, hib, hne, hns, hnm⟩
      exact ⟨⟨hb, hne, hib⟩, fun hs => hns (Or.inr hs), hnm⟩
    · rintro ⟨⟨hb, hne, hib⟩, hns, hnm⟩
      refine ⟨hb, hib, hne, ?_, hnm⟩
      rintro (he | hsa)
      · exact hne he
      · exact hns hsa
  · show count - (((boxOf cell).filter (fun p => p ∈ a.mines)).card : Int)
      = count - (((inBoundsNeighbors a.height a.width cell).filter
          (fun p => p ∈ a.mines)).card : Int)
    have e1 : (boxOf cell).filter (fun p => p ∈ a.mines)
        = (inBoundsNeighbors a.height a.width cell).filter (fun p => p ∈ a.mines) := by
      ext x
      simp only [inBoundsNeighbors, Finset.mem_filter]
      constructor
      · rintro ⟨hb, hm⟩
        exact ⟨⟨hb, fun he => h2 (he ▸ hm), h1 x hm⟩, hm⟩
      · rintro ⟨⟨hb, _, _⟩, hm⟩
        exact ⟨hb, hm⟩
    rw [e1]

/-- Witness for the amended C4 at a concrete state. -/
theorem added_sentence_characterization_witness :
    (∀ m ∈ miniAI.mines, inB miniAI.height miniAI.width m) ∧
    ((0 : Int), (1 : Int)) ∉ miniAI.mines ∧
    ((miniAI.addedSentence ((0 : Int), (1 : Int)) 0).cells
       = (inBoundsNeighbors miniAI.height miniAI.width ((0 : Int), (1 : Int))).filter
           (fun p => p ∉ miniAI.safes ∧ p ∉ miniAI.mines) ∧
     (miniAI.addedSentence ((0 : Int), (1 : Int)) 0).count
       = 0 - (((inBoundsNeighbors miniAI.height miniAI.width ((0 : Int), (1 : Int))).filter
           (fun p => p ∈ miniAI.mines)).card : Int)) :=
  ⟨by decide, by decide,
   added_sentence_characterization miniAI ((0 : Int), (1 : Int)) 0
     (by decide) (by decide)⟩

/-- Counterexample to C4 as stated: after the truthful probe `(0,0)` on the
1 x 2 grid with mine `(0,1)` (state `cornerAI`, where `(0,1)` has been
deduced a mine), probing `(0,1)` with count 0 builds the sentence with count
`-1`, not the claimed `0 - 0 = 0`: the source also decrements for the
probed cell itself, which lies in `mines`. -/
theorem added_sentence_counterexample :
    (cornerAI.addedSentence ((0 : Int), (1 : Int)) 0).count = -1 ∧
    (cornerAI.addedSentence ((0 : Int), (1 : Int)) 0).count
      ≠ 0 - (((inBoundsNeighbors cornerAI.height cornerAI.width ((0 : Int), (1 : Int))).filter
          (fun p => p ∈ cornerAI.mines)).card : Int) := by decide

/-- Counterexample to C3 as stated: both counts of the probe sequence
`(0,0), (0,1)` on the 1 x 2 grid are truthful for the placement with its
single mine at `(0,1)`, yet after the second call the cell `(0,1)` is in
both `mines` and `safes`. -/
theorem hazards_safes_disjoint_counterexample :
    (∀ m ∈ mineAt01, inB 1 2 m) ∧
    (nearby_mines mineAt01 1 2 ((0 : Int), (0 : Int)) : Int) = 1 ∧
    (nearby_mines mineAt01 1 2 ((0 : Int), (1 : Int)) : Int) = 0 ∧
    ((0 : Int), (1 : Int)) ∈ badAI.mines ∧
    ((0 : Int), (1 : Int)) ∈ badAI.safes ∧
    ¬(badAI.mines ∩ badAI.safes = ∅) := by decide

/-- C1 (evaluation at the failing input).  After the fourth truthful probe
of the 1 x 8 play `failAI`, the knowledge base still holds the fully
resolved sentence `{(0,0)} = 0` while `(0,0)` is unmarked; re-running the
code's own self-resolution step `remove_sures` marks `(0,0)` safe and drops
the sentence, so the state is not an inference fixpoint. -/
theorem update_not_inference_fixpoint :
    failAI.knowledge = [⟨{((0 : Int), (0 : Int))}, 0⟩] ∧
    ((0 : Int), (0 : Int)) ∉ failAI.safes ∧
    failAI.remove_sures ≠ failAI ∧
    (failAI.remove_sures).knowledge = [] ∧
    ((0 : Int), (0 : Int)) ∈ (failAI.remove_sures).safes := by decide

/-- C2 (evaluation at the failing inputs).  After the fourth call of the
`failAI` play a sentence remains whose `known_safes` is not `None` (it
yields the nonempty set `{(0,0)}`); and on a 1 x 1 grid the vacuous sentence
`(∅, 0)`, whose two queries yield the empty set, is kept as well. -/
theorem resolved_sentence_remains :
    failAI.knowledge = [⟨{((0 : Int), (0 : Int))}, 0⟩] ∧
    (⟨{((0 : Int), (0 : Int))}, (0 : Int)⟩ : Sentence).known_safes
      = some {((0 : Int), (0 : Int))} ∧
    tinyAI.knowledge = [⟨∅, 0⟩] ∧
    (⟨∅, (0 : Int)⟩ : Sentence).known_safes = some ∅ ∧
    (⟨∅, (0 : Int)⟩ : Sentence).known_mines = some ∅ := by decide
